import Mathlib

/-!
Verification development for the scoreboard-watcher program (`src/main.py`).

The program's numeric values (Python floats) are modelled as rationals `ℚ`;
Python dicts are modelled as association lists (`List (String × _)`), with
insertion-order-preserving update; a Python function that can raise an
uncaught exception is modelled as returning `Option` (`none` = the call
raises).  Every definition below is translated from the source file; the
few definitions that instead transcribe the specification's words (for
refinement comparison) say so in their doc comment.
-/

attribute [local semireducible] Rat.add Rat.mul Rat.sub Rat.inv Rat.ofScientific

/-- A submission record as fetched from the scoreboard service:
`{key, user, task, time, extra (component scores), score}`. -/
structure Submission where
  key : String
  user : String
  task : String
  time : ℤ
  extra : List ℚ
  score : ℚ
deriving DecidableEq

/-- The durable ledger (`State` in the source): `state` maps
participant → problem → component-score vector, `submissions` is the
list of applied submission keys (`json_state['submission']`). -/
structure LedgerState where
  state : List (String × List (String × List ℚ))
  submissions : List String
deriving DecidableEq

/-- Association-list lookup, modelling Python dict lookup `m[k]` /
`k in m`. -/
def lookupA {α : Type} : List (String × α) → String → Option α
  | [], _ => none
  | (k, v) :: rest, k1 => if k = k1 then some v else lookupA rest k1

/-- Association-list update, modelling Python dict assignment `m[k] = v`
(replaces in place, appends a fresh key at the end, as dicts do). -/
def updAssoc {α : Type} : List (String × α) → String → α → List (String × α)
  | [], k1, v1 => [(k1, v1)]
  | (k, v) :: rest, k1, v1 =>
      if k = k1 then (k1, v1) :: rest else (k, v) :: updAssoc rest k1 v1

/-- The loop `for i in range(len(points)): vec[i] = max(vec[i], points[i])`.
If the stored vector is shorter than the incoming one the Python loop
raises `IndexError`; that is the `none` case. -/
def maxUpdate : List ℚ → List ℚ → Option (List ℚ)
  | vec, [] => some vec
  | [], _ :: _ => none
  | v :: vs, p :: ps => (maxUpdate vs ps).map (fun r => max v p :: r)

/-- `State.has_submission`: `submission['key'] in self.submissions`. -/
def hasSubmission (st : LedgerState) (sub : Submission) : Bool :=
  st.submissions.contains sub.key

/-- `State.add_submission`, line by line: lazily create the participant
dict and the zero-initialized vector, take the component-wise maximum
with the incoming `extra` vector, append the key to `submissions`.
`none` models the `IndexError` raised when the stored vector is shorter
than the incoming one. -/
def addSubmission (st : LedgerState) (sub : Submission) : Option LedgerState :=
  let s1 := if (lookupA st.state sub.user).isNone
            then updAssoc st.state sub.user [] else st.state
  let pm := (lookupA s1 sub.user).getD []
  let pm1 := if (lookupA pm sub.task).isNone
             then updAssoc pm sub.task (List.replicate sub.extra.length 0) else pm
  let vec := (lookupA pm1 sub.task).getD []
  match maxUpdate vec sub.extra with
  | none => none
  | some vec1 => some { state := updAssoc s1 sub.user (updAssoc pm1 sub.task vec1),
                        submissions := st.submissions ++ [sub.key] }

/-- Apply a list of submissions in order (the pipeline's per-submission
loop); `none` as soon as one application raises. -/
def applyAll (st : LedgerState) (subs : List Submission) : Option LedgerState :=
  subs.foldlM addSubmission st

/-- The stored score vector of a (participant, problem) pair. -/
def lookup2 (st : LedgerState) (participant problem : String) : Option (List ℚ) :=
  (lookupA st.state participant).bind (fun pm => lookupA pm problem)

/-- Component `i` of the stored vector of a pair (0 when the pair or the
component is absent, matching the ledger's zero initialization). -/
def scoreAt (st : LedgerState) (participant problem : String) (i : ℕ) : ℚ :=
  ((lookup2 st participant problem).getD []).getD i 0

/-- The ledger on first run (`FileNotFoundError` branch). -/
def emptyLedger : LedgerState := { state := [], submissions := [] }

/-- Modelled from the spec: "each component of the resulting ScoreVector
equals the maximum of that component across all applied submissions" —
the maximum of component `i` over the submissions themselves, with no
zero floor.  Used to compare the claimed value with the code's value. -/
def specComponentMax (subs : List Submission) (i : ℕ) : ℚ :=
  match subs with
  | [] => 0
  | s :: rest => (rest.map (fun x => x.extra.getD i 0)).foldl max (s.extra.getD i 0)

/-! ### Rank engine (`Scoreboard`) -/

/-- A rank descriptor: the source renders a tie group of size > 1 as the
string `'lo-hi'` and a singleton group as `'n'`; `int(x.split('-')[0])`
recovers the low bound of either form. -/
inductive RankDesc where
  | single : ℕ → RankDesc
  | tieRange : ℕ → ℕ → RankDesc
deriving DecidableEq

/-- The numeric low bound `int(x.split('-')[0])` of a descriptor. -/
def RankDesc.low : RankDesc → ℕ
  | .single n => n
  | .tieRange lo _ => lo

/-- The set of rank slots a descriptor stands for, as a list. -/
def RankDesc.covered : RankDesc → List ℕ
  | .single n => [n]
  | .tieRange lo hi => List.range' lo (hi + 1 - lo)

/-- `'{}-{}'.format(ptr + 1, ptr + ln) if ln > 1 else str(ptr + 1)`. -/
def mkDesc (ptr ln : ℕ) : RankDesc :=
  if 1 < ln then .tieRange (ptr + 1) (ptr + ln) else .single (ptr + 1)

/-- `total_score = sum(problem_stats.values())` for every participant. -/
def totalsOf (scores : List (String × List (String × ℚ))) : List (String × ℚ) :=
  scores.map (fun p => (p.1, (p.2.map Prod.snd).sum))

/-- The distinct total scores (the keys of the `defaultdict`). -/
def distinctTotals (ts : List (String × ℚ)) : List ℚ :=
  (ts.map Prod.snd).dedup

/-- Insert an element into a list sorted by the strict "comes before"
relation `r`, after any element it is not strictly before (a stable
insertion, like Python's stable sort). -/
def insertRel {α : Type} (r : α → α → Prop) [DecidableRel r] (a : α) :
    List α → List α
  | [] => [a]
  | x :: xs => if r a x then a :: x :: xs else x :: insertRel r a xs

/-- Insertion sort by the strict "comes before" relation `r`; models
Python's `sorted` / `list.sort`. -/
def sortRel {α : Type} (r : α → α → Prop) [DecidableRel r] : List α → List α
  | [] => []
  | x :: xs => insertRel r x (sortRel r xs)

/-- `sorted(points.items(), key=itemgetter(0), reverse=True)`: the
distinct totals in descending order. -/
def sortedTotalsDesc (ts : List (String × ℚ)) : List ℚ :=
  sortRel (fun a b => b < a) (distinctTotals ts)

/-- `points[total_score]`: the participants whose total is `q`, in
scores-iteration order. -/
def groupMembers (ts : List (String × ℚ)) (q : ℚ) : List String :=
  (ts.filter (fun p => p.2 = q)).map Prod.fst

/-- The tie groups in the order the ranking loop visits them:
descending by total score. -/
def rankGroups (ts : List (String × ℚ)) : List (ℚ × List String) :=
  (sortedTotalsDesc ts).map (fun q => (q, groupMembers ts q))

/-- The assignment loop: each member of a group at running pointer `ptr`
receives the descriptor `mkDesc ptr ln`, then `ptr += ln`. -/
def assignPositions : List (ℚ × List String) → ℕ → List (String × RankDesc)
  | [], _ => []
  | (_, people) :: rest, ptr =>
      people.map (fun id => (id, mkDesc ptr people.length))
        ++ assignPositions rest (ptr + people.length)

/-- The rank slots covered by each group's descriptor, group by group. -/
def groupDescRanges : List (ℚ × List String) → ℕ → List (List ℕ)
  | [], _ => []
  | (_, people) :: rest, ptr =>
      (mkDesc ptr people.length).covered
        :: groupDescRanges rest (ptr + people.length)

/-- `self.positions` as computed by `Scoreboard.__init__` from a
non-empty scores map. -/
def scoreboardPositions (scores : List (String × List (String × ℚ))) :
    List (String × RankDesc) :=
  assignPositions (rankGroups (totalsOf scores)) 0

/-- The `Scoreboard` object: `ok`, the previously persisted positions
(parsed rank-descriptor strings; a missing entry models `.get(id, '?')`
returning `'?'`), and the current positions. -/
structure Scoreboard where
  ok : Bool
  old_positions : List (String × RankDesc)
  positions : List (String × RankDesc)

/-- `Scoreboard.__init__`: `scores` is `None` (fetch failed) or the
scores dict; if `None` or empty, `ok = False` and positions stay empty
(the early return happens before `old_positions` is even loaded). -/
def mkScoreboard (scores : Option (List (String × List (String × ℚ))))
    (old : List (String × RankDesc)) : Scoreboard :=
  match scores with
  | none => { ok := false, old_positions := [], positions := [] }
  | some s =>
      if s.isEmpty then { ok := false, old_positions := [], positions := [] }
      else { ok := true, old_positions := old, positions := scoreboardPositions s }

/-- `Scoreboard.get_result`: the outer `none` models the `KeyError`
raised by the unguarded `self.positions[id]`; the inner `Option RankDesc`
is the descriptor, `none` standing for the `'?'` string. -/
def getResult (sb : Scoreboard) (id : String) : Option (String × Option RankDesc) :=
  if !sb.ok then some ("", none)
  else
    match lookupA sb.positions id with
    | none => none
    | some newPos =>
        match lookupA sb.old_positions id with
        | none => some ("", some newPos)
        | some oldPos =>
            if newPos.low < oldPos.low then some ("↑", some newPos)
            else if oldPos.low < newPos.low then some ("↓", some newPos)
            else some ("", some newPos)

/-! ### Retrying fetcher (`DataFetcher._get_request`) -/

/-- The outcome of one GET attempt: success (2xx and valid JSON), a
non-2xx HTTP status (the `status_code != 200` branch, which `continue`s),
or a transport fault (the `except` branch). -/
inductive FetchAttempt where
  | success
  | badStatus
  | fault
deriving DecidableEq

/-- The retry loop of `_get_request`, from attempt `i` with the current
running delay.  Returns whether a payload was obtained and the list of
delays actually passed to `time.sleep`, in order.  Note the source's
`continue` on a non-2xx status jumps straight to the next iteration,
skipping both the sleep and the delay multiplication. -/
def getRequestAux (outcomes : ℕ → FetchAttempt) (exponent : ℚ) :
    ℕ → ℕ → ℚ → Bool × List ℚ
  | 0, _, _ => (false, [])
  | fuel + 1, i, delay =>
    match outcomes i with
    | .success => (true, [])
    | .badStatus => getRequestAux outcomes exponent fuel (i + 1) delay
    | .fault =>
        if 0 < fuel then
          let r := getRequestAux outcomes exponent fuel (i + 1) (delay * exponent)
          (r.1, delay :: r.2)
        else (false, [])

/-- `DataFetcher._get_request` abstracted over the per-attempt outcomes:
`retries` attempts, first delay `firstDelay`, backoff factor `exponent`.
The first recursion argument of the loop is the number of attempts still
allowed (`retries - i`), so `i + 1 < retries` reads `0 < fuel`. -/
def getRequest (outcomes : ℕ → FetchAttempt) (retries : ℕ)
    (firstDelay exponent : ℚ) : Bool × List ℚ :=
  getRequestAux outcomes exponent retries 0 firstDelay

/-- The number of attempts, other than the final one, that take the
`except` (transport-fault) path — exactly the attempts after which the
code sleeps.  Arguments as in `getRequestAux`: remaining attempts, then
the index of the current attempt. -/
def faultSleepCount (outcomes : ℕ → FetchAttempt) : ℕ → ℕ → ℕ
  | 0, _ => 0
  | 1, _ => 0
  | fuel + 2, i =>
      (if outcomes i = .fault then 1 else 0) + faultSleepCount outcomes (fuel + 1) (i + 1)

/-- Modelled from the spec: "the delay ... starts at `firstRetryDelay`
and is multiplied by `retryDelayExponent` after every failed attempt
except the last" — the delays the spec says are slept when every one of
the `retries` attempts fails. -/
def claimedSleeps (retries : ℕ) (d e : ℚ) : List ℚ :=
  (List.range (retries - 1)).map (fun k => d * e ^ k)

/-! ### Formatter -/

/-- The floor of a rational, computed by floor division of the numerator
by the denominator. -/
def ratFloor (q : ℚ) : ℤ :=
  q.num.fdiv q.den

/-- Round to the nearest integer, ties to even — the rounding CPython's
fixed-point float formatting performs on the (exact) value. -/
def roundHalfEven (q : ℚ) : ℤ :=
  if q - ratFloor q < 1 / 2 then ratFloor q
  else if 1 / 2 < q - ratFloor q then ratFloor q + 1
  else if ratFloor q % 2 = 0 then ratFloor q else ratFloor q + 1

/-- The decimal digits of a natural number, most significant first;
structural recursion on a fuel argument so that it evaluates in the
kernel (`fuel = n` is always enough since `n / 10 < n`). -/
def natDigitsF : ℕ → ℕ → List Char
  | 0, n => [Nat.digitChar n]
  | fuel + 1, n =>
      if n < 10 then [Nat.digitChar n]
      else natDigitsF fuel (n / 10) ++ [Nat.digitChar (n % 10)]

/-- The decimal digits of a natural number, most significant first. -/
def natDigits (n : ℕ) : List Char :=
  natDigitsF n n

/-- Decimal rendering of an integer (no decimal point). -/
def intRepr (n : ℤ) : String :=
  (if n < 0 then "-" else "") ++ ⟨natDigits n.natAbs⟩

/-- `'{0:.0f}'.format(q)`. -/
def formatFixed0 (q : ℚ) : String :=
  intRepr (roundHalfEven q)

/-- `'{0:.2f}'.format(q)`: integer part, a point, and exactly two
fractional digits. -/
def formatFixed2 (q : ℚ) : String :=
  let n := roundHalfEven (q * 100)
  (if n < 0 then "-" else "") ++ ⟨natDigits (n.natAbs / 100)⟩ ++ "."
    ++ ⟨[Nat.digitChar (n.natAbs / 10 % 10), Nat.digitChar (n.natAbs % 10)]⟩

/-- The `Formatter` class: `{False: '{0:.0f}', True: '{0:.2f}'}` selected
by the problem's `fractional_scoring` flag. -/
def formatter (value : ℚ) (fractional_scoring : Bool) : String :=
  if fractional_scoring then formatFixed2 value else formatFixed0 value

/-- `State.get_points`: the formatted sum of the stored component
vector, 0 when the pair is absent. -/
def get_points (st : LedgerState) (participant problem : String)
    (fractional_scoring : Bool) : String :=
  match lookup2 st participant problem with
  | none => formatter 0 fractional_scoring
  | some v => formatter v.sum fractional_scoring

/-- The number of characters after the first `'.'` of a string (0 when
there is none): how many decimal places a rendered number shows. -/
def fracLen (s : String) : Nat :=
  match s.data.dropWhile (fun c => c != '.') with
  | [] => 0
  | _ :: rest => rest.length

/-! ### Leaderboard ordering (`main`, lines 264–277) -/

/-- The sort key `int(s(x).split('-')[0])` of a leaderboard entry's
result; only evaluated in the branch where no result is `'?'`. -/
def optLow : Option RankDesc → ℕ
  | none => 0
  | some d => d.low

/-- A leaderboard entry: the rendered line paired with the participant's
rank result (`none` = the `'?'` descriptor). -/
abbrev LBEntry := String × Option RankDesc

/-- The final ordering step of `main`: sort ascending by rank low bound
unless some participant's result is `'?'`, in which case the list keeps
the configured participant order. -/
def orderLeaderboard (entries : List LBEntry) : List LBEntry :=
  if entries.any (fun e => e.2.isNone) then entries
  else sortRel (fun a b => optLow a.2 < optLow b.2) entries

/-! ### Association-list lemmas -/

theorem lookupA_updAssoc_self {α : Type} (m : List (String × α)) (k : String) (v : α) :
    lookupA (updAssoc m k v) k = some v := by
  induction m with
  | nil => simp [updAssoc, lookupA]
  | cons p rest ih =>
      obtain ⟨k1, v1⟩ := p
      by_cases h : k1 = k
      · simp [updAssoc, h, lookupA]
      · simp [updAssoc, h, lookupA, ih]

theorem lookupA_updAssoc_ne {α : Type} (m : List (String × α)) (k k1 : String) (v : α)
    (h : k ≠ k1) : lookupA (updAssoc m k v) k1 = lookupA m k1 := by
  induction m with
  | nil => simp [updAssoc, lookupA, h]
  | cons p rest ih =>
      obtain ⟨k2, v2⟩ := p
      by_cases h2 : k2 = k
      · subst h2
        simp [updAssoc, lookupA, h]
      · simp only [updAssoc, if_neg h2, lookupA]
        by_cases h3 : k2 = k1 <;> simp [h3, ih]

/-! ### `maxUpdate` lemmas -/

theorem maxUpdate_length : ∀ {v p r : List ℚ}, maxUpdate v p = some r → r.length = v.length
  | v, [], r, h => by simp [maxUpdate] at h; simp [h.symm]
  | [], _ :: _, r, h => by simp [maxUpdate] at h
  | x :: vs, q :: ps, r, h => by
      simp only [maxUpdate, Option.map_eq_some'] at h
      obtain ⟨r1, h1, h2⟩ := h
      subst h2
      simp [maxUpdate_length h1]

theorem maxUpdate_isSome : ∀ {v p : List ℚ}, p.length ≤ v.length →
    ∃ r, maxUpdate v p = some r
  | v, [], _ => ⟨v, by simp [maxUpdate]⟩
  | [], _ :: _, h => by simp at h
  | x :: vs, q :: ps, h => by
      obtain ⟨r1, h1⟩ := maxUpdate_isSome (p := ps) (v := vs) (by simpa using h)
      exact ⟨max x q :: r1, by simp [maxUpdate, h1]⟩

theorem maxUpdate_none : ∀ {v p : List ℚ}, maxUpdate v p = none → v.length < p.length
  | _, [], h => by simp [maxUpdate] at h
  | [], _ :: _, _ => by simp
  | x :: vs, q :: ps, h => by
      simp only [maxUpdate, Option.map_eq_none'] at h
      simpa using maxUpdate_none h

theorem maxUpdate_idem : ∀ {v p r : List ℚ}, maxUpdate v p = some r →
    maxUpdate r p = some r
  | v, [], r, h => by simp [maxUpdate] at h ⊢
  | [], _ :: _, r, h => by simp [maxUpdate] at h
  | x :: vs, q :: ps, r, h => by
      simp only [maxUpdate, Option.map_eq_some'] at h
      obtain ⟨r1, h1, h2⟩ := h
      subst h2
      simp [maxUpdate, maxUpdate_idem h1, max_assoc, max_self]

theorem maxUpdate_getD_le : ∀ {v p r : List ℚ}, maxUpdate v p = some r →
    ∀ i, v.getD i 0 ≤ r.getD i 0
  | v, [], r, h => by simp [maxUpdate] at h; simp [h.symm]
  | [], _ :: _, r, h => by simp [maxUpdate] at h
  | x :: vs, q :: ps, r, h => by
      simp only [maxUpdate, Option.map_eq_some'] at h
      obtain ⟨r1, h1, h2⟩ := h
      subst h2
      intro i
      cases i with
      | zero => simp
      | succ j => simpa using maxUpdate_getD_le h1 j

theorem maxUpdate_eq_zipWith : ∀ {v p : List ℚ}, v.length = p.length →
    maxUpdate v p = some (List.zipWith max v p)
  | v, [], h => by
      have hv : v = [] := List.length_eq_zero.mp (by simpa using h)
      subst hv
      simp [maxUpdate]
  | [], _ :: _, h => by simp at h
  | x :: vs, q :: ps, h => by
      simp [maxUpdate, maxUpdate_eq_zipWith (by simpa using h)]

theorem updAssoc_updAssoc {α : Type} (m : List (String × α)) (k : String) (a b : α) :
    updAssoc (updAssoc m k a) k b = updAssoc m k b := by
  induction m with
  | nil => simp [updAssoc]
  | cons p rest ih =>
      obtain ⟨k1, v1⟩ := p
      by_cases h : k1 = k
      · simp [updAssoc, h]
      · simp [updAssoc, h, ih]

/-- The vector `add_submission` feeds to its update loop: the stored one,
or the freshly created zero vector of the incoming length. -/
def vecB (st : LedgerState) (sub : Submission) : List ℚ :=
  (lookup2 st sub.user sub.task).getD (List.replicate sub.extra.length 0)

/-- Closed form of `addSubmission`: the update loop runs on `vecB`, and on
success the (participant, problem) entry is replaced by its result and the
key appended. -/
theorem addSubmission_char (st : LedgerState) (sub : Submission) :
    addSubmission st sub = (maxUpdate (vecB st sub) sub.extra).map (fun v1 =>
      { state := updAssoc st.state sub.user
          (updAssoc ((lookupA st.state sub.user).getD []) sub.task v1),
        submissions := st.submissions ++ [sub.key] }) := by
  rcases hU : lookupA st.state sub.user with _ | pmu
  · have h0 : lookupA ([] : List (String × List ℚ)) sub.task = none := rfl
    have hvec : vecB st sub = List.replicate sub.extra.length 0 := by
      simp [vecB, lookup2, hU]
    simp only [addSubmission, hU, hvec, h0, Option.isNone_none, Option.getD_none,
      Option.getD_some, lookupA_updAssoc_self, if_true]
    cases hm : maxUpdate (List.replicate sub.extra.length 0) sub.extra with
    | none => simp
    | some v1 => simp [updAssoc_updAssoc]
  · rcases hT : lookupA pmu sub.task with _ | vec
    · have hvec : vecB st sub = List.replicate sub.extra.length 0 := by
        simp [vecB, lookup2, hU, hT]
      simp only [addSubmission, hU, hvec, hT, Option.isNone_none, Option.isNone_some,
        Option.getD_some, lookupA_updAssoc_self, if_true, Bool.false_eq_true, if_false]
      cases hm : maxUpdate (List.replicate sub.extra.length 0) sub.extra with
      | none => simp
      | some v1 => simp [updAssoc_updAssoc]
    · have hvec : vecB st sub = vec := by
        simp [vecB, lookup2, hU, hT]
      simp only [addSubmission, hU, hvec, hT, Option.isNone_some, Option.getD_some,
        Bool.false_eq_true, if_false]
      cases hm : maxUpdate vec sub.extra with
      | none => simp
      | some v1 => simp

theorem addSubmission_submissions (st : LedgerState) (sub : Submission) (st1 : LedgerState)
    (h : addSubmission st sub = some st1) :
    st1.submissions = st.submissions ++ [sub.key] := by
  rw [addSubmission_char] at h
  rcases hm : maxUpdate (vecB st sub) sub.extra with _ | v1 <;> rw [hm] at h
  · simp at h
  · simp only [Option.map_some', Option.some_inj] at h
    rw [← h]

theorem maxUpdate_some_le : ∀ {v p r : List ℚ}, maxUpdate v p = some r →
    p.length ≤ v.length
  | _, [], _, _ => by simp
  | [], _ :: _, r, h => by simp [maxUpdate] at h
  | x :: vs, q :: ps, r, h => by
      simp only [maxUpdate, Option.map_eq_some'] at h
      obtain ⟨r1, h1, _⟩ := h
      simpa using maxUpdate_some_le h1

theorem addSubmission_lookup2 (st : LedgerState) (sub : Submission) (st1 : LedgerState)
    (h : addSubmission st sub = some st1) (u t : String) :
    lookup2 st1 u t = if u = sub.user ∧ t = sub.task
      then maxUpdate (vecB st sub) sub.extra
      else lookup2 st u t := by
  rw [addSubmission_char] at h
  rcases hm : maxUpdate (vecB st sub) sub.extra with _ | v1 <;> rw [hm] at h
  · simp at h
  · simp only [Option.map_some', Option.some_inj] at h
    subst h
    by_cases hu : u = sub.user
    · subst hu
      by_cases ht : t = sub.task
      · subst ht
        simp [lookup2, lookupA_updAssoc_self]
      · have hne : sub.task ≠ t := fun hc => ht hc.symm
        rcases hU : lookupA st.state sub.user with _ | pmu
        · simp [lookup2, lookupA_updAssoc_self, hU, lookupA_updAssoc_ne _ _ _ _ hne,
            ht, hne, lookupA]
        · simp [lookup2, lookupA_updAssoc_self, hU, lookupA_updAssoc_ne _ _ _ _ hne, ht, hne]
    · have hne : sub.user ≠ u := fun hc => hu hc.symm
      simp [lookup2, lookupA_updAssoc_ne _ _ _ _ hne, hu]

theorem addSubmission_some_iff (st : LedgerState) (sub : Submission) :
    (∃ st1, addSubmission st sub = some st1) ↔ sub.extra.length ≤ (vecB st sub).length := by
  rw [addSubmission_char]
  constructor
  · rintro ⟨st1, h⟩
    rcases hm : maxUpdate (vecB st sub) sub.extra with _ | v1
    · rw [hm] at h; simp at h
    · exact maxUpdate_some_le hm
  · intro hle
    rcases maxUpdate_isSome (v := vecB st sub) (p := sub.extra) hle with ⟨r, hr⟩
    exact ⟨_, by rw [hr]; rfl⟩

theorem applyAll_nil (st : LedgerState) : applyAll st [] = some st := rfl

theorem applyAll_cons (st : LedgerState) (s : Submission) (rest : List Submission) :
    applyAll st (s :: rest) = (addSubmission st s).bind (fun st2 => applyAll st2 rest) := by
  cases h : addSubmission st s <;> simp [applyAll, List.foldlM, h, Option.bind]

theorem hasSubmission_iff (st : LedgerState) (sub : Submission) :
    hasSubmission st sub = true ↔ sub.key ∈ st.submissions := by
  simp [hasSubmission, List.contains, List.elem_iff]

theorem applyAll_submissions_superset (subs : List Submission) :
    ∀ (st st1 : LedgerState), applyAll st subs = some st1 →
      ∀ k, k ∈ st.submissions → k ∈ st1.submissions := by
  induction subs with
  | nil =>
      intro st st1 h k hk
      rw [applyAll_nil, Option.some_inj] at h
      rw [← h]
      exact hk
  | cons s rest ih =>
      intro st st1 h k hk
      rw [applyAll_cons] at h
      rcases h2 : addSubmission st s with _ | st2 <;> rw [h2] at h
      · cases h
      · refine ih st2 st1 (by simpa using h) k ?_
        rw [addSubmission_submissions st s st2 h2]
        simp [hk]

/-- Claim C2: applying the same submission record twice yields the same
ScoreVector for its (participant, problem) pair as applying it once, and
`has_submission` on the record's key is true after one application and
remains true after any further sequence of ledger applications. -/
theorem claim2_idempotent_application (st st1 : LedgerState) (sub : Submission)
    (h : addSubmission st sub = some st1) :
    (∃ st2, addSubmission st1 sub = some st2
        ∧ lookup2 st2 sub.user sub.task = lookup2 st1 sub.user sub.task)
    ∧ hasSubmission st1 sub = true
    ∧ (∀ subs2 st3, applyAll st1 subs2 = some st3 → hasSubmission st3 sub = true) := by
  obtain ⟨v1, hm⟩ : ∃ v1, maxUpdate (vecB st sub) sub.extra = some v1 :=
    maxUpdate_isSome ((addSubmission_some_iff st sub).mp ⟨st1, h⟩)
  have hl1 : lookup2 st1 sub.user sub.task = some v1 := by
    rw [addSubmission_lookup2 st sub st1 h sub.user sub.task]
    simp [hm]
  have hvecB1 : vecB st1 sub = v1 := by simp [vecB, hl1]
  have hm2 : maxUpdate (vecB st1 sub) sub.extra = some v1 := by
    rw [hvecB1]
    exact maxUpdate_idem hm
  have hkey : sub.key ∈ st1.submissions := by
    rw [addSubmission_submissions st sub st1 h]
    simp
  refine ⟨?_, (hasSubmission_iff st1 sub).mpr hkey, ?_⟩
  · obtain ⟨st2, h2⟩ : ∃ st2, addSubmission st1 sub = some st2 :=
      (addSubmission_some_iff st1 sub).mpr (maxUpdate_some_le hm2)
    refine ⟨st2, h2, ?_⟩
    rw [addSubmission_lookup2 st1 sub st2 h2 sub.user sub.task]
    simp [hm2, hl1]
  · intro subs2 st3 h3
    exact (hasSubmission_iff st3 sub).mpr
      (applyAll_submissions_superset subs2 st1 st3 h3 sub.key hkey)

/-- Witness for C2 at a concrete input: a fresh submission with vector
`[1, 2]` applied to the empty ledger. -/
theorem claim2_idempotent_application_witness :
    hasSubmission { state := [("u", [("t", [1, 2])])], submissions := ["k"] }
      { key := "k", user := "u", task := "t", time := 0, extra := [1, 2], score := 3 } = true :=
  (claim2_idempotent_application emptyLedger
    { state := [("u", [("t", [1, 2])])], submissions := ["k"] }
    { key := "k", user := "u", task := "t", time := 0, extra := [1, 2], score := 3 }
    (by decide)).2.1

/-- Claim C5, evaluated at the failing input: the pair ("u", "t") is
established with vector length 2, then a submission with a vector of
length 1 is applied.  The code does not fail: it silently updates only
component 0 and records the submission key — contradicting the spec's
requirement that a length mismatch fail loudly and never be coerced into
a partial component-wise update. -/
theorem claim5_short_vector_applied_silently :
    applyAll emptyLedger
        [{ key := "kA", user := "u", task := "t", time := 0, extra := [1, 2], score := 0 },
         { key := "kB", user := "u", task := "t", time := 1, extra := [7], score := 0 }]
      = some { state := [("u", [("t", [7, 2])])], submissions := ["kA", "kB"] } := by
  decide

/-! ### Lemmas for the monotone-maximum claim -/

theorem getD_replicate (L i : ℕ) : (List.replicate L (0 : ℚ)).getD i 0 = 0 := by
  rw [List.getD_eq_getElem?_getD]
  by_cases h : i < L <;> simp [List.getElem?_replicate, h]

theorem zipWith_max_getD (v p : List ℚ) (h : v.length = p.length) (i : ℕ) :
    (List.zipWith max v p).getD i 0 = max (v.getD i 0) (p.getD i 0) := by
  simp only [List.getD_eq_getElem?_getD, List.getElem?_zipWith]
  rcases Nat.lt_or_ge i v.length with hi | hi
  · rw [List.getElem?_eq_getElem (show i < v.length from hi),
      List.getElem?_eq_getElem (show i < p.length from h ▸ hi)]
    simp
  · rw [List.getElem?_eq_none (show v.length ≤ i from hi),
      List.getElem?_eq_none (show p.length ≤ i from h ▸ hi)]
    simp
theorem foldl_vec_length : ∀ (subs : List Submission) (v : List ℚ),
    (∀ s ∈ subs, s.extra.length = v.length) →
    (subs.foldl (fun w s => List.zipWith max w s.extra) v).length = v.length
  | [], v, _ => rfl
  | s :: rest, v, h => by
      rw [List.foldl_cons]
      have hz : (List.zipWith max v s.extra).length = v.length := by
        rw [List.length_zipWith, h s (by simp)]
        simp
      rw [foldl_vec_length rest (List.zipWith max v s.extra)
        (fun x hx => by rw [hz]; exact h x (by simp [hx])), hz]

theorem foldl_vec_getD : ∀ (subs : List Submission) (v : List ℚ),
    (∀ s ∈ subs, s.extra.length = v.length) → ∀ i,
    (subs.foldl (fun w s => List.zipWith max w s.extra) v).getD i 0
      = subs.foldl (fun m s => max m (s.extra.getD i 0)) (v.getD i 0)
  | [], v, _, i => rfl
  | s :: rest, v, h, i => by
      rw [List.foldl_cons, List.foldl_cons]
      have hz : (List.zipWith max v s.extra).length = v.length := by
        rw [List.length_zipWith, h s (by simp)]
        simp
      rw [foldl_vec_getD rest (List.zipWith max v s.extra)
        (fun x hx => by rw [hz]; exact h x (by simp [hx])) i,
        zipWith_max_getD v s.extra (h s (by simp)).symm i]

/-- Running the per-submission loop from a state that already stores a
vector `v` for the pair: every application succeeds and the final vector
is the left fold of component-wise maxima. -/
theorem applyAll_run (u t : String) (L : ℕ) :
    ∀ (subs : List Submission) (st : LedgerState) (v : List ℚ),
    lookup2 st u t = some v → v.length = L →
    (∀ s ∈ subs, s.user = u ∧ s.task = t ∧ s.extra.length = L) →
    ∃ st1, applyAll st subs = some st1
      ∧ lookup2 st1 u t = some (subs.foldl (fun w s => List.zipWith max w s.extra) v)
  | [], st, v, hv, _, _ => ⟨st, applyAll_nil st, by simpa using hv⟩
  | s :: rest, st, v, hv, hL, hsubs => by
      obtain ⟨hu, ht, hlen⟩ := hsubs s (by simp)
      have hvecB : vecB st s = v := by
        rw [vecB, hu, ht, hv]
        rfl
      have hmax : maxUpdate (vecB st s) s.extra = some (List.zipWith max v s.extra) := by
        rw [hvecB]
        exact maxUpdate_eq_zipWith (by rw [hL, hlen])
      rcases hex : addSubmission st s with _ | st2
      · exfalso
        obtain ⟨stw, hw⟩ := (addSubmission_some_iff st s).mpr (maxUpdate_some_le hmax)
        rw [hex] at hw
        cases hw
      · have hl2 : lookup2 st2 u t = some (List.zipWith max v s.extra) := by
          have h2 := addSubmission_lookup2 st s st2 hex u t
          rw [if_pos ⟨hu.symm, ht.symm⟩, hmax] at h2
          exact h2
        have hz : (List.zipWith max v s.extra).length = L := by
          rw [List.length_zipWith, hlen, hL]
          simp
        obtain ⟨st1, hrun, hlook⟩ := applyAll_run u t L rest st2 (List.zipWith max v s.extra)
          hl2 hz (fun x hx => hsubs x (by simp [hx]))
        exact ⟨st1, by rw [applyAll_cons, hex]; simpa using hrun, by
          rw [hlook, List.foldl_cons]⟩

/-- One application never decreases any stored component, for every pair
and index. -/
theorem addSubmission_scoreAt_le (sta stb : LedgerState) (sub : Submission)
    (h : addSubmission sta sub = some stb) (u1 t1 : String) (i : ℕ) :
    scoreAt sta u1 t1 i ≤ scoreAt stb u1 t1 i := by
  have hl := addSubmission_lookup2 sta sub stb h u1 t1
  by_cases hc : u1 = sub.user ∧ t1 = sub.task
  · rw [if_pos hc] at hl
    obtain ⟨r, hr⟩ : ∃ r, maxUpdate (vecB sta sub) sub.extra = some r :=
      maxUpdate_isSome ((addSubmission_some_iff sta sub).mp ⟨stb, h⟩)
    rw [hr] at hl
    have h3 : scoreAt sta u1 t1 i = (vecB sta sub).getD i 0 := by
      obtain ⟨hcu, hct⟩ := hc
      rw [scoreAt, vecB, hcu, hct]
      cases hlk : lookup2 sta sub.user sub.task
      · simp [getD_replicate]
      · simp
    calc scoreAt sta u1 t1 i = (vecB sta sub).getD i 0 := h3
      _ ≤ r.getD i 0 := maxUpdate_getD_le hr i
      _ = scoreAt stb u1 t1 i := by rw [scoreAt, hl]; simp
  · rw [if_neg hc] at hl
    simp only [scoreAt, hl]
    exact le_rfl

/-- Running the per-submission loop on a pair not yet present in the
ledger: the first submission creates the zero vector of length `L`. -/
theorem applyAll_fresh (u t : String) (L : ℕ) (subs : List Submission) (st0 : LedgerState)
    (hfresh : lookup2 st0 u t = none)
    (hsubs : ∀ s ∈ subs, s.user = u ∧ s.task = t ∧ s.extra.length = L) :
    ∃ st1, applyAll st0 subs = some st1
      ∧ ((subs = [] ∧ lookup2 st1 u t = none)
         ∨ (subs ≠ [] ∧ lookup2 st1 u t
              = some (subs.foldl (fun w s => List.zipWith max w s.extra)
                  (List.replicate L 0)))) := by
  cases subs with
  | nil => exact ⟨st0, applyAll_nil st0, Or.inl ⟨rfl, hfresh⟩⟩
  | cons s rest =>
      obtain ⟨hu, ht, hlen⟩ := hsubs s (by simp)
      have hvecB : vecB st0 s = List.replicate L 0 := by
        rw [vecB, hu, ht, hfresh, hlen]
        rfl
      have hmax : maxUpdate (vecB st0 s) s.extra
          = some (List.zipWith max (List.replicate L 0) s.extra) := by
        rw [hvecB]
        exact maxUpdate_eq_zipWith (by simp [hlen])
      rcases hex : addSubmission st0 s with _ | st2
      · exfalso
        obtain ⟨stw, hw⟩ := (addSubmission_some_iff st0 s).mpr (maxUpdate_some_le hmax)
        rw [hex] at hw
        cases hw
      · have hl2 : lookup2 st2 u t
            = some (List.zipWith max (List.replicate L 0) s.extra) := by
          have h2 := addSubmission_lookup2 st0 s st2 hex u t
          rw [if_pos ⟨hu.symm, ht.symm⟩, hmax] at h2
          exact h2
        have hz : (List.zipWith max (List.replicate L 0) s.extra).length = L := by
          rw [List.length_zipWith, hlen]
          simp
        obtain ⟨st1, hrun, hlook⟩ :=
          applyAll_run u t L rest st2 (List.zipWith max (List.replicate L 0) s.extra)
            hl2 hz (fun x hx => hsubs x (by simp [hx]))
        refine ⟨st1, by rw [applyAll_cons, hex]; simpa using hrun, Or.inr ⟨by simp, ?_⟩⟩
        rw [hlook, List.foldl_cons]

/-- Claim C1 (amended): for a fresh (participant, problem) pair and any
sequence of submissions for it whose component vectors all have the
established length `L`, the whole sequence applies successfully; each
stored component ends up equal to the maximum of zero (the vector's
zero initialization) and that component across all applied submissions;
the resulting stored vector is the same for every application order; and
every single application is component-wise non-decreasing on every
stored component of the ledger. -/
theorem claim1_monotone_component_max (st0 : LedgerState) (subs : List Submission)
    (u t : String) (L : ℕ)
    (hfresh : lookup2 st0 u t = none)
    (hsubs : ∀ s ∈ subs, s.user = u ∧ s.task = t ∧ s.extra.length = L) :
    (∃ st1, applyAll st0 subs = some st1
      ∧ (∀ i, scoreAt st1 u t i
          = subs.foldl (fun m s => max m (s.extra.getD i 0)) 0)
      ∧ (∀ subs2, subs2.Perm subs →
          ∃ st2, applyAll st0 subs2 = some st2
            ∧ lookup2 st2 u t = lookup2 st1 u t))
    ∧ (∀ (sta stb : LedgerState) (sub : Submission),
        addSubmission sta sub = some stb →
        ∀ u1 t1 i, scoreAt sta u1 t1 i ≤ scoreAt stb u1 t1 i) := by
  refine ⟨?_, fun sta stb sub h u1 t1 i => addSubmission_scoreAt_le sta stb sub h u1 t1 i⟩
  obtain ⟨st1, hrun, hres⟩ := applyAll_fresh u t L subs st0 hfresh hsubs
  have hlen : ∀ s ∈ subs, s.extra.length = (List.replicate L (0 : ℚ)).length :=
    fun s hs => by simpa using (hsubs s hs).2.2
  have hscore : ∀ i, scoreAt st1 u t i
      = subs.foldl (fun m s => max m (s.extra.getD i 0)) 0 := by
    intro i
    rcases hres with ⟨hnil, hnone⟩ | ⟨_, heq⟩
    · subst hnil
      simp [scoreAt, hnone]
    · rw [scoreAt, heq, Option.getD_some, foldl_vec_getD subs _ hlen i, getD_replicate]
  refine ⟨st1, hrun, hscore, ?_⟩
  intro subs2 hperm
  have hsubs2 : ∀ s ∈ subs2, s.user = u ∧ s.task = t ∧ s.extra.length = L :=
    fun s hs => hsubs s (hperm.subset hs)
  have hlen2 : ∀ s ∈ subs2, s.extra.length = (List.replicate L (0 : ℚ)).length :=
    fun s hs => by simpa using (hsubs2 s hs).2.2
  obtain ⟨st2, hrun2, hres2⟩ := applyAll_fresh u t L subs2 st0 hfresh hsubs2
  refine ⟨st2, hrun2, ?_⟩
  rcases hres with ⟨hnil, hnone⟩ | ⟨hne, heq⟩
  · subst hnil
    have h2 : subs2 = [] := List.perm_nil.mp hperm
    subst h2
    rcases hres2 with ⟨_, hnone2⟩ | ⟨hne2, _⟩
    · rw [hnone2, hnone]
    · exact absurd rfl hne2
  · rcases hres2 with ⟨hnil2, _⟩ | ⟨hne2, heq2⟩
    · exact absurd (List.perm_nil.mp (by rw [hnil2] at hperm; exact hperm.symm)) hne
    · rw [heq, heq2]
      have hw : subs2.foldl (fun w s => List.zipWith max w s.extra) (List.replicate L 0)
          = subs.foldl (fun w s => List.zipWith max w s.extra) (List.replicate L 0) := by
        apply List.ext_getElem
        · rw [foldl_vec_length subs2 _ hlen2, foldl_vec_length subs _ hlen]
        · intro n h1 h2
          have e1 : (subs2.foldl (fun w s => List.zipWith max w s.extra)
              (List.replicate L 0)).getD n 0
              = subs2.foldl (fun m s => max m (s.extra.getD n 0)) 0 := by
            rw [foldl_vec_getD subs2 _ hlen2 n, getD_replicate]
          have e2 : (subs.foldl (fun w s => List.zipWith max w s.extra)
              (List.replicate L 0)).getD n 0
              = subs.foldl (fun m s => max m (s.extra.getD n 0)) 0 := by
            rw [foldl_vec_getD subs _ hlen n, getD_replicate]
          have e3 : subs2.foldl (fun m s => max m (s.extra.getD n 0)) 0
              = subs.foldl (fun m s => max m (s.extra.getD n 0)) 0 :=
            hperm.foldl_eq' (fun x _ y _ z => by
              rw [max_assoc, max_comm (x.extra.getD n 0), ← max_assoc]) 0
          have e4 := e1.trans (e3.trans e2.symm)
          rw [List.getD_eq_getElem?_getD, List.getD_eq_getElem?_getD,
            List.getElem?_eq_getElem h1, List.getElem?_eq_getElem h2] at e4
          simpa using e4
      rw [hw]

/-- A concrete submission with a negative component score, for the C1
counterexample. -/
def c1SubNeg : Submission :=
  { key := "k", user := "u", task := "t", time := 0, extra := [-1], score := 0 }

/-- Claim C1 as stated is false at a concrete input: a single submission
whose only component score is `-1` leaves the stored component at `0`
(the zero-initialized vector is never lowered), not at the maximum of
that component across the applied submissions, which is `-1`. -/
theorem claim1_counterexample :
    (applyAll emptyLedger [c1SubNeg]).map (fun st => scoreAt st "u" "t" 0) = some 0
    ∧ specComponentMax [c1SubNeg] 0 = -1
    ∧ (0 : ℚ) ≠ -1 := by decide
/-- Concrete submissions for the C1 witness. -/
def c1SubA : Submission :=
  { key := "kA", user := "u", task := "t", time := 0, extra := [1, 5], score := 6 }

/-- Concrete submissions for the C1 witness. -/
def c1SubB : Submission :=
  { key := "kB", user := "u", task := "t", time := 1, extra := [3, 2], score := 5 }

/-- Witness for C1 at a concrete input: two submissions of length 2 on a
fresh pair. -/
theorem claim1_monotone_component_max_witness :
    ∃ st1, applyAll emptyLedger [c1SubA, c1SubB] = some st1
      ∧ (∀ i, scoreAt st1 "u" "t" i
          = [c1SubA, c1SubB].foldl (fun m s => max m (s.extra.getD i 0)) 0)
      ∧ (∀ subs2, subs2.Perm [c1SubA, c1SubB] →
          ∃ st2, applyAll emptyLedger subs2 = some st2
            ∧ lookup2 st2 "u" "t" = lookup2 st1 "u" "t") :=
  (claim1_monotone_component_max emptyLedger [c1SubA, c1SubB] "u" "t" 2
    (by decide) (by decide)).1

/-! ### Rank-engine lemmas and claims -/

/-- Claim C6: for a participant present in the current positions, the
diff compares the numeric low bounds of the old and new descriptors: a
strictly lower current low bound gives the "moved up" symbol, a strictly
higher one the "moved down" symbol, equal low bounds the empty symbol;
a participant with no entry in the previous snapshot gets the empty
symbol with the current descriptor still returned. -/
theorem claim6_diff_low_bound (sb : Scoreboard) (id : String) (np : RankDesc)
    (hok : sb.ok = true) (hnew : lookupA sb.positions id = some np) :
    (lookupA sb.old_positions id = none → getResult sb id = some ("", some np))
    ∧ (∀ op, lookupA sb.old_positions id = some op →
        getResult sb id = some
          ((if np.low < op.low then "↑" else if op.low < np.low then "↓" else ""),
            some np)) := by
  constructor
  · intro hold
    simp [getResult, hok, hnew, hold]
  · intro op hold
    by_cases h1 : np.low < op.low
    · simp [getResult, hok, hnew, hold, h1]
    · by_cases h2 : op.low < np.low <;> simp [getResult, hok, hnew, hold, h1, h2]

/-- The concrete scoreboard for the C6 witness: old descriptor `'3'`,
new descriptor `'1'`. -/
def c6Board : Scoreboard :=
  { ok := true, old_positions := [("a", RankDesc.single 3)], positions := [("a", RankDesc.single 1)] }

/-- Witness for C6: old descriptor `'3'`, new descriptor `'1'` gives the
"moved up" symbol. -/
theorem claim6_diff_low_bound_witness :
    getResult c6Board "a" = some ("↑", some (RankDesc.single 1)) := by
  have h := (claim6_diff_low_bound c6Board "a" (RankDesc.single 1)
    rfl (by decide)).2 (RankDesc.single 3) (by decide)
  simpa using h

/-- Claim C7: an empty or absent totals map marks the engine not OK, and
then every `get_result` call returns the empty movement symbol with the
unknown descriptor, never raising. -/
theorem claim7_degenerate_scoreboard (scores : Option (List (String × List (String × ℚ))))
    (old : List (String × RankDesc))
    (h : scores = none ∨ scores = some []) :
    (mkScoreboard scores old).ok = false
    ∧ ∀ id, getResult (mkScoreboard scores old) id = some ("", none) := by
  rcases h with h | h <;> subst h
  · exact ⟨rfl, fun id => rfl⟩
  · exact ⟨rfl, fun id => rfl⟩

/-- Witness for C7: the absent (`None`) totals map. -/
theorem claim7_degenerate_scoreboard_witness :
    (mkScoreboard none []).ok = false
    ∧ ∀ id, getResult (mkScoreboard none []) id = some ("", none) :=
  claim7_degenerate_scoreboard none [] (Or.inl rfl)

theorem lookupA_eq_none_of_not_mem {α : Type} (m : List (String × α)) (id : String)
    (h : id ∉ m.map Prod.fst) : lookupA m id = none := by
  induction m with
  | nil => rfl
  | cons p rest ih =>
      obtain ⟨k, v⟩ := p
      simp only [List.map_cons, List.mem_cons] at h
      push_neg at h
      simp only [lookupA, ih h.2]
      rw [if_neg (fun hc => h.1 hc.symm)]

theorem assignPositions_keys : ∀ (gs : List (ℚ × List String)) (ptr : ℕ),
    (assignPositions gs ptr).map Prod.fst = (gs.map Prod.snd).flatten
  | [], _ => rfl
  | (q, people) :: rest, ptr => by
      simp [assignPositions, assignPositions_keys rest, List.map_map, Function.comp_def]

theorem totalsOf_keys (scores : List (String × List (String × ℚ))) :
    (totalsOf scores).map Prod.fst = scores.map Prod.fst := by
  simp [totalsOf, List.map_map, Function.comp_def]

theorem groupMembers_sub (ts : List (String × ℚ)) (q : ℚ) (id : String)
    (h : id ∈ groupMembers ts q) : id ∈ ts.map Prod.fst := by
  simp only [groupMembers, List.mem_map] at h
  obtain ⟨p, hp, hid⟩ := h
  exact List.mem_map.mpr ⟨p, List.mem_of_mem_filter hp, hid⟩

theorem scoreboardPositions_keys_sub (scores : List (String × List (String × ℚ)))
    (id : String) (h : id ∈ (scoreboardPositions scores).map Prod.fst) :
    id ∈ scores.map Prod.fst := by
  rw [scoreboardPositions, assignPositions_keys] at h
  rw [List.mem_flatten] at h
  obtain ⟨l, hl, hid⟩ := h
  simp only [rankGroups, List.map_map, List.mem_map, Function.comp_def] at hl
  obtain ⟨q, _, hq⟩ := hl
  rw [← totalsOf_keys]
  exact groupMembers_sub (totalsOf scores) q id (hq ▸ hid)

/-- Claim C10: with a non-empty totals map the engine is OK, and
`get_result` for a participant absent from the computed positions (in
particular, absent from the scores map) raises (`none`) instead of
returning an unknown descriptor. -/
theorem claim10_missing_participant_raises (scores : List (String × List (String × ℚ)))
    (old : List (String × RankDesc)) (id : String)
    (hne : scores ≠ []) (hid : id ∉ scores.map Prod.fst) :
    (mkScoreboard (some scores) old).ok = true
    ∧ getResult (mkScoreboard (some scores) old) id = none := by
  have hempty : scores.isEmpty = false := by
    cases scores
    · exact absurd rfl hne
    · rfl
  have hsb : mkScoreboard (some scores) old
      = { ok := true, old_positions := old, positions := scoreboardPositions scores } := by
    simp [mkScoreboard, hempty]
  have hpos : lookupA (scoreboardPositions scores) id = none :=
    lookupA_eq_none_of_not_mem _ _ (fun hc => hid (scoreboardPositions_keys_sub scores id hc))
  refine ⟨by rw [hsb], ?_⟩
  rw [hsb]
  simp [getResult, hpos]

/-- Witness for C10: participant "z" absent from a one-participant
scores map. -/
theorem claim10_missing_participant_raises_witness :
    (mkScoreboard (some [("a", [("p", 5)])] ) []).ok = true
    ∧ getResult (mkScoreboard (some [("a", [("p", 5)])] ) []) "z" = none :=
  claim10_missing_participant_raises [("a", [("p", 5)])] [] "z" (by decide) (by decide)

theorem insertRel_perm {α : Type} (r : α → α → Prop) [DecidableRel r] (a : α)
    (l : List α) : (insertRel r a l).Perm (a :: l) := by
  induction l with
  | nil => exact List.Perm.refl _
  | cons x xs ih =>
      rw [insertRel]
      by_cases h : r a x
      · rw [if_pos h]
      · rw [if_neg h]
        exact (ih.cons x).trans (List.Perm.swap a x xs)

theorem sortRel_perm {α : Type} (r : α → α → Prop) [DecidableRel r] (l : List α) :
    (sortRel r l).Perm l := by
  induction l with
  | nil => exact List.Perm.refl _
  | cons x xs ih => exact (insertRel_perm r x (sortRel r xs)).trans (ih.cons x)

theorem insertRel_pairwise {α : Type} (r : α → α → Prop) [DecidableRel r]
    (hasymm : ∀ a b, r a b → ¬ r b a) (htrans : ∀ a b c, r a b → r b c → r a c)
    (a : α) (l : List α) (hl : l.Pairwise (fun x y => ¬ r y x)) :
    (insertRel r a l).Pairwise (fun x y => ¬ r y x) := by
  induction l with
  | nil => simp [insertRel]
  | cons x xs ih =>
      rw [List.pairwise_cons] at hl
      obtain ⟨hx, hxs⟩ := hl
      rw [insertRel]
      by_cases h : r a x
      · rw [if_pos h, List.pairwise_cons]
        refine ⟨?_, List.pairwise_cons.mpr ⟨hx, hxs⟩⟩
        intro y hy
        rcases List.mem_cons.mp hy with hy | hy
        · subst hy
          exact hasymm a y h
        · intro hya
          exact hx y hy (htrans y a x hya h)
      · rw [if_neg h, List.pairwise_cons]
        refine ⟨?_, ih hxs⟩
        intro y hy
        rcases List.mem_cons.mp ((insertRel_perm r a xs).mem_iff.mp hy) with hy | hy
        · subst hy
          exact h
        · exact hx y hy

theorem sortRel_pairwise {α : Type} (r : α → α → Prop) [DecidableRel r]
    (hasymm : ∀ a b, r a b → ¬ r b a) (htrans : ∀ a b c, r a b → r b c → r a c)
    (l : List α) : (sortRel r l).Pairwise (fun x y => ¬ r y x) := by
  induction l with
  | nil => simp [sortRel]
  | cons x xs ih => exact insertRel_pairwise r hasymm htrans x (sortRel r xs) ih

theorem flatten_groupMembers_perm : ∀ (qs : List ℚ) (ts : List (String × ℚ)),
    qs.Nodup → (∀ p ∈ ts, p.2 ∈ qs) →
    ((qs.map (fun q => groupMembers ts q)).flatten).Perm (ts.map Prod.fst)
  | [], ts, _, hcov => by
      have hts : ts = [] :=
        List.eq_nil_iff_forall_not_mem.mpr (fun p hp => by simpa using hcov p hp)
      subst hts
      simp
  | q :: qs1, ts, hnd, hcov => by
      rw [List.nodup_cons] at hnd
      obtain ⟨hq, hnd1⟩ := hnd
      rw [List.map_cons, List.flatten_cons]
      have hsame : qs1.map (fun q1 => groupMembers ts q1)
          = qs1.map (fun q1 => groupMembers (ts.filter (fun p => !(p.2 = q : Bool))) q1) := by
        apply List.map_congr_left
        intro q1 hq1
        have hne : q1 ≠ q := fun hc => hq (hc ▸ hq1)
        rw [groupMembers, groupMembers, List.filter_filter]
        congr 1
        apply List.filter_congr
        intro p _
        by_cases hp : p.2 = q1
        · simp [hp, hne]
        · simp [hp]
      have hcov1 : ∀ p ∈ ts.filter (fun p => !(p.2 = q : Bool)), p.2 ∈ qs1 := by
        intro p hp
        rw [List.mem_filter] at hp
        rcases List.mem_cons.mp (hcov p hp.1) with hc | hc
        · exfalso
          revert hp
          simp [hc]
        · exact hc
      have ih := flatten_groupMembers_perm qs1 (ts.filter (fun p => !(p.2 = q : Bool)))
        hnd1 hcov1
      rw [hsame]
      refine ((List.Perm.append_left (groupMembers ts q) ih).trans ?_)
      have hfp := (List.filter_append_perm (fun p => (p.2 = q : Bool)) ts).map Prod.fst
      rw [List.map_append] at hfp
      exact hfp

theorem sortedTotalsDesc_perm (ts : List (String × ℚ)) :
    (sortedTotalsDesc ts).Perm (distinctTotals ts) :=
  sortRel_perm _ _

theorem rankGroups_flatten_perm (ts : List (String × ℚ)) :
    (((rankGroups ts).map Prod.snd).flatten).Perm (ts.map Prod.fst) := by
  rw [rankGroups, List.map_map]
  have heq : (Prod.snd ∘ fun q => (q, groupMembers ts q)) = fun q => groupMembers ts q := rfl
  rw [heq]
  apply flatten_groupMembers_perm
  · exact (sortedTotalsDesc_perm ts).symm.nodup (List.nodup_dedup _)
  · intro p hp
    rw [(sortedTotalsDesc_perm ts).mem_iff, distinctTotals, List.mem_dedup]
    exact List.mem_map.mpr ⟨p, hp, rfl⟩

theorem rankGroups_nonempty (ts : List (String × ℚ)) :
    ∀ g ∈ rankGroups ts, g.2 ≠ [] := by
  intro g hg
  rw [rankGroups, List.mem_map] at hg
  obtain ⟨q, hq, hgq⟩ := hg
  rw [(sortedTotalsDesc_perm ts).mem_iff, distinctTotals, List.mem_dedup,
    List.mem_map] at hq
  obtain ⟨p, hp, hpq⟩ := hq
  have : p.1 ∈ g.2 := by
    rw [← hgq]
    exact List.mem_map.mpr ⟨p, List.mem_filter.mpr ⟨hp, by simp [hpq]⟩, rfl⟩
  exact List.ne_nil_of_mem this

theorem mkDesc_covered (ptr ln : ℕ) (h : ln ≠ 0) :
    (mkDesc ptr ln).covered = List.range' (ptr + 1) ln := by
  rw [mkDesc]
  by_cases h1 : 1 < ln
  · rw [if_pos h1, RankDesc.covered]
    congr 1
    omega
  · have h2 : ln = 1 := by omega
    subst h2
    rw [if_neg h1, RankDesc.covered, List.range'_one]

theorem groupDescRanges_flatten : ∀ (gs : List (ℚ × List String)) (ptr : ℕ),
    (∀ g ∈ gs, g.2 ≠ []) →
    (groupDescRanges gs ptr).flatten
      = List.range' (ptr + 1) ((gs.map (fun g => g.2.length)).sum)
  | [], ptr, _ => by simp [groupDescRanges]
  | (q, people) :: rest, ptr, hne => by
      rw [groupDescRanges, List.flatten_cons,
        groupDescRanges_flatten rest (ptr + people.length)
          (fun g hg => hne g (by simp [hg])),
        mkDesc_covered ptr people.length
          (fun hc => hne (q, people) (by simp) (by simpa using hc))]
      rw [List.map_cons, List.sum_cons]
      have : ptr + people.length + 1 = (ptr + 1) + people.length := by omega
      rw [this, List.range'_append_1]
      congr 1
      exact Nat.add_comm _ _

theorem groupDescRanges_lengths : ∀ (gs : List (ℚ × List String)) (ptr : ℕ),
    (∀ g ∈ gs, g.2 ≠ []) →
    (groupDescRanges gs ptr).map List.length = gs.map (fun g => g.2.length)
  | [], _, _ => rfl
  | (q, people) :: rest, ptr, hne => by
      rw [groupDescRanges, List.map_cons, List.map_cons,
        groupDescRanges_lengths rest (ptr + people.length)
          (fun g hg => hne g (by simp [hg])),
        mkDesc_covered ptr people.length
          (fun hc => hne (q, people) (by simp) (by simpa using hc)),
        List.length_range']

theorem rankGroups_totals_sorted (ts : List (String × ℚ))
    (hnd : (sortedTotalsDesc ts).Nodup) :
    ((rankGroups ts).map Prod.fst).Sorted (· > ·) := by
  rw [rankGroups, List.map_map]
  have heq : (Prod.fst ∘ fun q => (q, groupMembers ts q)) = id := rfl
  rw [heq, List.map_id]
  have hpw : (sortedTotalsDesc ts).Pairwise (fun x y => ¬ (x < y)) :=
    sortRel_pairwise (fun a b => b < a)
      (fun a b h1 h2 => absurd h1 (lt_asymm h2))
      (fun a b c h1 h2 => lt_trans h2 h1) _
  exact (hpw.and hnd).imp (fun h => lt_of_le_of_ne (not_lt.mp h.1) (Ne.symm h.2))

/-- Claim C3: for a non-empty scores map, the rank computation gives each
participant exactly one descriptor (the assigned keys are a permutation
of the participants, with no duplicates when the input has none); the
groups' descriptor ranges, in assignment order, exactly tile `[1, N]`
where `N` is the participant count (no overlap or gap); the groups are
ordered by strictly descending total score; and each group's descriptor
range width equals the group size. -/
theorem claim3_rank_partition (scores : List (String × List (String × ℚ)))
    (_hne : scores ≠ []) :
    ((scoreboardPositions scores).map Prod.fst).Perm (scores.map Prod.fst)
    ∧ ((scores.map Prod.fst).Nodup → ((scoreboardPositions scores).map Prod.fst).Nodup)
    ∧ (groupDescRanges (rankGroups (totalsOf scores)) 0).flatten
        = List.range' 1 scores.length
    ∧ ((rankGroups (totalsOf scores)).map Prod.fst).Sorted (· > ·)
    ∧ (groupDescRanges (rankGroups (totalsOf scores)) 0).map List.length
        = (rankGroups (totalsOf scores)).map (fun g => g.2.length) := by
  have hkeys : (scoreboardPositions scores).map Prod.fst
      = (((rankGroups (totalsOf scores)).map Prod.snd)).flatten := by
    rw [scoreboardPositions, assignPositions_keys]
  have hperm : ((scoreboardPositions scores).map Prod.fst).Perm (scores.map Prod.fst) := by
    rw [hkeys, ← totalsOf_keys]
    exact rankGroups_flatten_perm (totalsOf scores)
  have hnonempty := rankGroups_nonempty (totalsOf scores)
  have hsum : ((rankGroups (totalsOf scores)).map (fun g => g.2.length)).sum
      = scores.length := by
    have h1 : (rankGroups (totalsOf scores)).map (fun g => g.2.length)
        = ((rankGroups (totalsOf scores)).map Prod.snd).map List.length := by
      rw [List.map_map]
      rfl
    rw [h1, ← List.length_flatten,
      (rankGroups_flatten_perm (totalsOf scores)).length_eq,
      List.length_map, totalsOf, List.length_map]
  refine ⟨hperm, fun hnd => hperm.symm.nodup hnd, ?_, ?_,
    groupDescRanges_lengths _ 0 hnonempty⟩
  · rw [groupDescRanges_flatten _ 0 hnonempty, hsum]
  · exact rankGroups_totals_sorted (totalsOf scores)
      ((sortedTotalsDesc_perm (totalsOf scores)).symm.nodup (List.nodup_dedup _))

/-- The concrete scores map for the C3 witness: a and b tie at 5, c has 3. -/
def c3Scores : List (String × List (String × ℚ)) :=
  [("a", [("p", 5)]), ("b", [("p", 5)]), ("c", [("p", 3)])]

/-- Witness for C3 at the concrete scores map `c3Scores`. -/
theorem claim3_rank_partition_witness :
    ((scoreboardPositions c3Scores).map Prod.fst).Perm (c3Scores.map Prod.fst)
    ∧ ((c3Scores.map Prod.fst).Nodup → ((scoreboardPositions c3Scores).map Prod.fst).Nodup)
    ∧ (groupDescRanges (rankGroups (totalsOf c3Scores)) 0).flatten
        = List.range' 1 c3Scores.length
    ∧ ((rankGroups (totalsOf c3Scores)).map Prod.fst).Sorted (· > ·)
    ∧ (groupDescRanges (rankGroups (totalsOf c3Scores)) 0).map List.length
        = (rankGroups (totalsOf c3Scores)).map (fun g => g.2.length) :=
  claim3_rank_partition c3Scores (by decide)

/-- Claim C8: the leaderboard lines are sorted ascending by the numeric
low bound of each entry's rank descriptor, unless at least one entry has
the unknown descriptor, in which case the list is left in the configured
participant order. -/
theorem claim8_leaderboard_order (entries : List LBEntry) :
    ((∀ e ∈ entries, e.2 ≠ none) →
      (orderLeaderboard entries).Sorted (fun a b => optLow a.2 ≤ optLow b.2)
      ∧ (orderLeaderboard entries).Perm entries)
    ∧ ((∃ e ∈ entries, e.2 = none) → orderLeaderboard entries = entries) := by
  constructor
  · intro h
    have hany : entries.any (fun e => e.2.isNone) = false := by
      rw [List.any_eq_false]
      intro e he
      cases hc : e.2
      · exact absurd hc (h e he)
      · simp
    rw [orderLeaderboard, hany]
    simp only [Bool.false_eq_true, if_false]
    constructor
    · exact (sortRel_pairwise (fun a b : LBEntry => optLow a.2 < optLow b.2)
        (fun a b h1 h2 => absurd h1 (lt_asymm h2))
        (fun a b c h1 h2 => lt_trans h1 h2) entries).imp
        (fun hp => not_lt.mp hp)
    · exact sortRel_perm _ _
  · rintro ⟨e, he, hnone⟩
    have hany : entries.any (fun x => x.2.isNone) = true :=
      List.any_eq_true.mpr ⟨e, he, by rw [hnone]; rfl⟩
    rw [orderLeaderboard, hany]
    simp

/-- Entries for the C8 witness: all descriptors known, out of order. -/
def c8Known : List LBEntry :=
  [("x line", some (RankDesc.single 2)), ("y line", some (RankDesc.single 1))]

/-- Entries for the C8 witness: one unknown descriptor. -/
def c8Unknown : List LBEntry :=
  [("x line", some (RankDesc.single 2)), ("y line", none)]

/-- Witness for C8: with all descriptors known the output is sorted by
low bound and a permutation of the input; with an unknown descriptor the
input order is kept. -/
theorem claim8_leaderboard_order_witness :
    ((orderLeaderboard c8Known).Sorted (fun a b => optLow a.2 ≤ optLow b.2)
      ∧ (orderLeaderboard c8Known).Perm c8Known)
    ∧ orderLeaderboard c8Unknown = c8Unknown :=
  ⟨(claim8_leaderboard_order c8Known).1 (by decide),
    (claim8_leaderboard_order c8Unknown).2 (by decide)⟩

/-- Claim C4 as stated is false at a concrete input: two attempts, both
failing with a non-2xx HTTP status. The `continue` statement skips the
sleep entirely, so no delay is slept, while the claimed schedule sleeps
`firstRetryDelay` before the second attempt. -/
theorem claim4_counterexample :
    (getRequest (fun _ => FetchAttempt.badStatus) 2 1 2).2 = []
    ∧ claimedSleeps 2 1 2 = [1]
    ∧ ([] : List ℚ) ≠ [1] := by decide

theorem getRequestAux_all_fail (outcomes : ℕ → FetchAttempt) (e : ℚ) :
    ∀ (fuel i : ℕ) (d : ℚ),
    (∀ j, i ≤ j → j < i + fuel → outcomes j ≠ FetchAttempt.success) →
    getRequestAux outcomes e fuel i d
      = (false, (List.range (faultSleepCount outcomes fuel i)).map (fun k => d * e ^ k))
  | 0, i, d, _ => by simp [getRequestAux, faultSleepCount]
  | fuel + 1, i, d, h => by
      rw [getRequestAux]
      cases ho : outcomes i with
      | success => exact absurd ho (h i (le_refl i) (by omega))
      | badStatus =>
          rw [getRequestAux_all_fail outcomes e fuel (i + 1) d
            (fun j h1 h2 => h j (by omega) (by omega))]
          cases fuel with
          | zero => simp [faultSleepCount]
          | succ f => simp [faultSleepCount, ho]
      | fault =>
          by_cases hf : 0 < fuel
          · rw [if_pos hf]
            obtain ⟨f, rfl⟩ : ∃ f, fuel = f + 1 := ⟨fuel - 1, by omega⟩
            rw [getRequestAux_all_fail outcomes e (f + 1) (i + 1) (d * e)
              (fun j h1 h2 => h j (by omega) (by omega))]
            have hfsc : faultSleepCount outcomes (f + 1 + 1) i
                = 1 + faultSleepCount outcomes (f + 1) (i + 1) := by
              simp [faultSleepCount, ho]
            rw [hfsc, Nat.add_comm 1 _, List.range_succ_eq_map, List.map_cons,
              List.map_map]
            show (false, d :: List.map (fun k => d * e * e ^ k)
                (List.range (faultSleepCount outcomes (f + 1) (i + 1))))
              = (false, d * e ^ 0 :: List.map ((fun k => d * e ^ k) ∘ Nat.succ)
                (List.range (faultSleepCount outcomes (f + 1) (i + 1))))
            refine congrArg _ ?_
            refine congrArg₂ _ (by simp) ?_
            apply List.map_congr_left
            intro k _
            simp only [Function.comp_apply]
            rw [pow_succ]
            ring
          · have hf0 : fuel = 0 := by omega
            subst hf0
            rw [if_neg hf]
            simp [faultSleepCount]

/-- Claim C4 (amended): when every attempt fails, the call returns the
failure signal, and the slept delays are exactly one per transport-fault
attempt other than the final attempt, forming the geometric schedule
`d, d·e, d·e², …` — the running delay starts at `firstRetryDelay` and is
slept and multiplied by `retryDelayExponent` only after a transport
fault that is not the last attempt; after a non-2xx HTTP status the loop
continues immediately with no sleep and no multiplication, and no delay
is ever slept after the final attempt. -/
theorem claim4_backoff_on_faults_only (outcomes : ℕ → FetchAttempt) (retries : ℕ)
    (d e : ℚ)
    (hfail : ∀ i, i < retries → outcomes i ≠ FetchAttempt.success) :
    getRequest outcomes retries d e
      = (false, (List.range (faultSleepCount outcomes retries 0)).map
          (fun k => d * e ^ k)) := by
  rw [getRequest]
  exact getRequestAux_all_fail outcomes e retries 0 d
    (fun j h1 h2 => hfail j (by omega))

/-- Witness for C4 (amended): three attempts, all transport faults, first
delay 1, exponent 2: the slept delays are `[1, 2]`. -/
theorem claim4_backoff_on_faults_only_witness :
    getRequest (fun _ => FetchAttempt.fault) 3 1 2
      = (false, (List.range (faultSleepCount (fun _ => FetchAttempt.fault) 3 0)).map
          (fun k => (1 : ℚ) * 2 ^ k)) :=
  claim4_backoff_on_faults_only (fun _ => FetchAttempt.fault) 3 1 2 (by decide)

theorem digitChar_ne_dot (n : ℕ) : Nat.digitChar n ≠ '.' := by
  rcases Nat.lt_or_ge n 16 with h | h
  · interval_cases n <;> decide
  · rw [Nat.digitChar]
    iterate 16 rw [if_neg (by omega)]
    decide

theorem natDigitsF_no_dot : ∀ (fuel n : ℕ), '.' ∉ natDigitsF fuel n
  | 0, n => by
      rw [natDigitsF]
      simp only [List.mem_singleton]
      exact fun hc => digitChar_ne_dot n hc.symm
  | fuel + 1, n => by
      rw [natDigitsF]
      by_cases h : n < 10
      · rw [if_pos h]
        simp only [List.mem_singleton]
        exact fun hc => digitChar_ne_dot n hc.symm
      · rw [if_neg h]
        rw [List.mem_append]
        rintro (hc | hc)
        · exact natDigitsF_no_dot fuel (n / 10) hc
        · rw [List.mem_singleton] at hc
          exact digitChar_ne_dot (n % 10) hc.symm

theorem natDigits_no_dot (n : ℕ) : '.' ∉ natDigits n :=
  natDigitsF_no_dot n n

theorem dropWhile_no_dot (A : List Char) (hA : '.' ∉ A) :
    A.dropWhile (fun c => c != '.') = [] := by
  induction A with
  | nil => rfl
  | cons a A1 ih =>
      rw [List.mem_cons] at hA
      push_neg at hA
      rw [List.dropWhile_cons, if_pos (by simpa using fun hc => hA.1 hc.symm)]
      exact ih hA.2

theorem dropWhile_append_dot (A B : List Char) (hA : '.' ∉ A) :
    (A ++ '.' :: B).dropWhile (fun c => c != '.') = '.' :: B := by
  induction A with
  | nil =>
      rw [List.nil_append, List.dropWhile_cons]
      simp
  | cons a A1 ih =>
      rw [List.mem_cons] at hA
      push_neg at hA
      rw [List.cons_append, List.dropWhile_cons,
        if_pos (by simpa using fun hc => hA.1 hc.symm)]
      exact ih hA.2

theorem fracLen_of_no_dot (s : String) (h : '.' ∉ s.data) : fracLen s = 0 := by
  rw [fracLen, dropWhile_no_dot _ h]

theorem fracLen_of_data (s : String) (A B : List Char) (hs : s.data = A ++ '.' :: B)
    (hA : '.' ∉ A) : fracLen s = B.length := by
  rw [fracLen, hs, dropWhile_append_dot A B hA]

theorem sign_no_dot (p : Prop) [Decidable p] : '.' ∉ (if p then "-" else "").data := by
  by_cases h : p
  · rw [if_pos h]
    decide
  · rw [if_neg h]
    decide

/-- Claim C9: the formatter renders a value with zero decimal places when
the problem is not fractional and with exactly two decimal places when it
is; a non-fractional 100 renders as "100" and a fractional 66.666 as
"66.67". -/
theorem claim9_formatter_decimals :
    (∀ q : ℚ, fracLen (formatter q false) = 0 ∧ fracLen (formatter q true) = 2)
    ∧ formatter 100 false = "100"
    ∧ formatter (66666 / 1000) true = "66.67" := by
  refine ⟨fun q => ⟨?_, ?_⟩, by decide, by decide⟩
  · apply fracLen_of_no_dot
    rw [formatter, if_neg (by simp), formatFixed0, intRepr]
    rw [String.data_append]
    rw [List.mem_append]
    rintro (hc | hc)
    · exact sign_no_dot _ hc
    · exact natDigits_no_dot _ hc
  · apply fracLen_of_data (formatter q true)
      ((if roundHalfEven (q * 100) < 0 then "-" else "").data
        ++ natDigits ((roundHalfEven (q * 100)).natAbs / 100))
      [Nat.digitChar ((roundHalfEven (q * 100)).natAbs / 10 % 10),
        Nat.digitChar ((roundHalfEven (q * 100)).natAbs % 10)]
    · rw [formatter, if_pos rfl, formatFixed2]
      simp only [String.data_append, List.append_assoc]
      rfl
    · rw [List.mem_append]
      rintro (hc | hc)
      · exact sign_no_dot _ hc
      · exact natDigits_no_dot _ hc
